import Mathlib

/-! # Verification of the Pocket_man personal-finance dashboard

Shallow embedding of `src/financial_dashboard.py`: the transaction and
budget stores held in session state, the two mutation handlers
(Add Transaction, Set Budget), the aggregation computations (totals,
monthly trend, expense breakdown, budget-vs-actual), and the CSV export.

Currency amounts are modelled as exact rationals; the input widgets
(`st.number_input` with `min_value=0.01, step=0.01`) constrain amounts to
positive multiples of 0.01.  Dates are year/month/day naturals as carried
by the date widget (Python `datetime.date` years are at most 9999). -/

namespace FinDash

/-- The fixed six-element category enumeration offered by both select boxes. -/
inductive Category where
  | Food
  | Transport
  | Rent
  | Entertainment
  | Utilities
  | Other
deriving DecidableEq, Repr

/-- Transaction kind: the `Type` radio button, either `Income` or `Expense`. -/
inductive TType where
  | Income
  | Expense
deriving DecidableEq, Repr

/-- A calendar date as produced by `st.date_input` (yyyy-mm-dd). -/
structure DateD where
  year : ℕ
  month : ℕ
  day : ℕ
deriving DecidableEq, Repr

/-- One row of the `transactions` DataFrame:
columns `Date, Description, Category, Amount, Type`. -/
structure Transaction where
  date : DateD
  description : String
  category : Category
  amount : ℚ
  type : TType
deriving DecidableEq, Repr

/-- One row of the `budgets` DataFrame: columns `Category, Amount`. -/
structure Budget where
  category : Category
  amount : ℚ
deriving DecidableEq, Repr

/-- The session state: the ordered `transactions` store and the `budgets`
store (`st.session_state.transactions` / `st.session_state.budgets`). -/
structure LedgerState where
  transactions : List Transaction
  budgets : List Budget
deriving DecidableEq, Repr

/-- The "Add Transaction" handler: `pd.concat([transactions, new_transaction],
ignore_index=True)` appends the new row at the end. -/
def add_transaction (s : LedgerState) (t : Transaction) : LedgerState :=
  { s with transactions := s.transactions ++ [t] }

/-- The "Set Budget" handler: first drop every row whose `Category` equals the
chosen one (`budgets[budgets['Category'] != budget_category]`), then append the
new `(Category, Amount)` row. -/
def upsert_budget (s : LedgerState) (c : Category) (l : ℚ) : LedgerState :=
  { s with budgets := s.budgets.filter (fun b => b.category ≠ c) ++ [⟨c, l⟩] }

/-- A user interaction that mutates the session state. -/
inductive Op where
  | addTx (t : Transaction)
  | setBudget (c : Category) (l : ℚ)
deriving DecidableEq, Repr

/-- Apply one interaction to the session state. -/
def applyOp (s : LedgerState) : Op → LedgerState
  | Op.addTx t => add_transaction s t
  | Op.setBudget c l => upsert_budget s c l

/-- The initial session state: both DataFrames start empty. -/
def initState : LedgerState := ⟨[], []⟩

/-- The state reached after a sequence of interactions. -/
def runOps (ops : List Op) : LedgerState := ops.foldl applyOp initState

/-- The value of the most recent `setBudget` for a category in an
interaction sequence, if any (spec-side definition: "last-write-wins"). -/
def lastSet (ops : List Op) (c : Category) : Option ℚ :=
  ops.foldl
    (fun acc op =>
      match op with
      | Op.setBudget c2 l => if c2 = c then some l else acc
      | _ => acc)
    none

/-- `total_income`: sum of `Amount` over rows with `Type == 'Income'`. -/
def total_income (ts : List Transaction) : ℚ :=
  ((ts.filter (fun t => t.type = TType.Income)).map (·.amount)).sum

/-- `total_expenses`: sum of `Amount` over rows with `Type == 'Expense'`. -/
def total_expenses (ts : List Transaction) : ℚ :=
  ((ts.filter (fun t => t.type = TType.Expense)).map (·.amount)).sum

/-- `net_balance = total_income - total_expenses`. -/
def net_balance (ts : List Transaction) : ℚ :=
  total_income ts - total_expenses ts

lemma runOps_append_one (ops : List Op) (op : Op) :
    runOps (ops ++ [op]) = applyOp (runOps ops) op := by
  simp [runOps, List.foldl_append]

lemma lastSet_append_one (ops : List Op) (op : Op) (c : Category) :
    lastSet (ops ++ [op]) c =
      (match op with
       | Op.setBudget c2 l => if c2 = c then some l else lastSet ops c
       | _ => lastSet ops c) := by
  cases op <;> simp [lastSet, List.foldl_append]

/-- C1: for every transaction sequence, `total_income` sums exactly the
Income amounts, `total_expenses` sums exactly the Expense amounts,
`net_balance` is exactly their difference, and each quantity is 0 on the
empty sequence. -/
theorem totals_correct (ts : List Transaction) :
    total_income ts = (ts.map (fun t => if t.type = TType.Income then t.amount else 0)).sum
    ∧ total_expenses ts = (ts.map (fun t => if t.type = TType.Expense then t.amount else 0)).sum
    ∧ net_balance ts = total_income ts - total_expenses ts
    ∧ total_income [] = 0 ∧ total_expenses [] = 0 ∧ net_balance [] = 0 := by
  refine ⟨?_, ?_, rfl, rfl, rfl, by simp [net_balance, total_income, total_expenses]⟩
  · induction ts with
    | nil => rfl
    | cons t ts ih =>
        by_cases h : t.type = TType.Income <;>
          simp [total_income, List.filter_cons, h] <;>
          simpa [total_income] using ih
  · induction ts with
    | nil => rfl
    | cons t ts ih =>
        by_cases h : t.type = TType.Expense <;>
          simp [total_expenses, List.filter_cons, h] <;>
          simpa [total_expenses] using ih

/-- C4: after any interaction sequence, the budget store has at most one
record per category, and a record `⟨c, l⟩` is present exactly when the most
recent `setBudget` for `c` set the value `l` (last-write-wins). -/
theorem budget_store_last_write_wins (ops : List Op) :
    ((runOps ops).budgets.map (·.category)).Nodup
    ∧ ∀ c l, (⟨c, l⟩ : Budget) ∈ (runOps ops).budgets ↔ lastSet ops c = some l := by
  induction ops using List.reverseRecOn with
  | nil => exact ⟨List.nodup_nil, by simp [runOps, initState, lastSet]⟩
  | append_singleton ops op ih =>
      obtain ⟨ihnd, ihmem⟩ := ih
      rw [runOps_append_one]
      cases op with
      | addTx t =>
          refine ⟨ihnd, fun c l => ?_⟩
          rw [lastSet_append_one]
          simpa [applyOp, add_transaction] using ihmem c l
      | setBudget c0 l0 =>
          constructor
          · simp only [applyOp, upsert_budget, List.map_append, List.map_cons, List.map_nil]
            refine List.Nodup.append ?_ (List.nodup_singleton _) ?_
            · exact ihnd.sublist ((List.filter_sublist _).map _)
            · intro x hx hx0
              simp only [List.mem_singleton] at hx0
              subst hx0
              obtain ⟨b, hb, hbc⟩ := List.mem_map.mp hx
              have := List.of_mem_filter hb
              simp only [decide_eq_true_eq] at this
              exact this hbc
          · intro c l
            rw [lastSet_append_one]
            simp only [applyOp, upsert_budget, List.mem_append, List.mem_filter,
              List.mem_singleton, decide_eq_true_eq]
            by_cases hc : c0 = c
            · subst hc
              simp only [if_pos rfl]
              constructor
              · rintro (⟨_, hne⟩ | hb)
                · exact absurd rfl hne
                · injection hb with h1 h2
                  simp [h2]
              · intro h
                injection h with h1
                exact Or.inr (by rw [h1])
            · rw [if_neg hc]
              rw [← ihmem c l]
              constructor
              · rintro (⟨hb, _⟩ | hb)
                · exact hb
                · injection hb with h1 h2
                  exact absurd h1.symm hc
              · intro hb
                exact Or.inl ⟨hb, fun h => hc h.symm⟩

/-- C10: each mutation touches only its own collection — adding a
transaction leaves the budget store unchanged, and upserting a budget
leaves the transaction sequence unchanged. -/
theorem mutations_frame (s : LedgerState) (t : Transaction) (c : Category) (l : ℚ) :
    (applyOp s (Op.addTx t)).budgets = s.budgets
    ∧ (applyOp s (Op.setBudget c l)).transactions = s.transactions := by
  exact ⟨rfl, rfl⟩

/-! ## Grouped aggregation (pandas `groupby(...).sum(numeric_only=True)`)

A groupby-sum yields one row per distinct key, with the keys sorted
ascending (pandas' default `sort=True`), each carrying the sum of `Amount`
over its group. -/

/-- Sum of `amt` over the elements of `xs` whose key is `k`: the `Amount`
value of one group row. -/
def keySum {α κ : Type} [DecidableEq κ] (key : α → κ) (amt : α → ℚ)
    (xs : List α) (k : κ) : ℚ :=
  ((xs.filter (fun x => key x = k)).map amt).sum

/-- `xs.groupby(key).sum().reset_index()`: the distinct keys of `xs`, sorted
ascending by `r`, each paired with its group sum. -/
def groupSums {α κ : Type} [DecidableEq κ] (r : κ → κ → Prop) [DecidableRel r]
    (key : α → κ) (amt : α → ℚ) (xs : List α) : List (κ × ℚ) :=
  (((xs.map key).dedup).insertionSort r).map (fun k => (k, keySum key amt xs k))

lemma mem_groupSums {α κ : Type} [DecidableEq κ] (r : κ → κ → Prop) [DecidableRel r]
    (key : α → κ) (amt : α → ℚ) (xs : List α) (k : κ) (s : ℚ) :
    (k, s) ∈ groupSums r key amt xs ↔
      (∃ x ∈ xs, key x = k) ∧ s = keySum key amt xs k := by
  simp only [groupSums, List.mem_map, List.mem_insertionSort, List.mem_dedup,
    Prod.mk.injEq]
  constructor
  · rintro ⟨k2, hk2, rfl, rfl⟩
    exact ⟨hk2, rfl⟩
  · rintro ⟨⟨x, hx, hk⟩, rfl⟩
    exact ⟨k, ⟨x, hx, hk⟩, rfl, rfl⟩

lemma keys_groupSums {α κ : Type} [DecidableEq κ] (r : κ → κ → Prop) [DecidableRel r]
    (key : α → κ) (amt : α → ℚ) (xs : List α) :
    (groupSums r key amt xs).map Prod.fst = ((xs.map key).dedup).insertionSort r := by
  simp [groupSums, List.map_map, Function.comp_def]

lemma nodup_keys_groupSums {α κ : Type} [DecidableEq κ] (r : κ → κ → Prop) [DecidableRel r]
    (key : α → κ) (amt : α → ℚ) (xs : List α) :
    ((groupSums r key amt xs).map Prod.fst).Nodup := by
  rw [keys_groupSums]
  exact ((List.perm_insertionSort r _).nodup_iff).mpr (List.nodup_dedup _)

lemma lookup_map_pair {κ : Type} [DecidableEq κ] (L : List κ) (f : κ → ℚ) (k : κ) :
    (List.map (fun k2 => (k2, f k2)) L).lookup k =
      if k ∈ L then some (f k) else none := by
  induction L with
  | nil => simp [List.lookup]
  | cons a L ih =>
      simp only [List.map_cons, List.lookup]
      by_cases h : k = a
      · subst h
        simp
      · have hb : (k == a) = false := beq_eq_false_iff_ne.mpr h
        rw [hb]
        simp only [ih, List.mem_cons]
        by_cases hm : k ∈ L <;> simp [hm, h]

lemma lookup_groupSums_getD {α κ : Type} [DecidableEq κ] (r : κ → κ → Prop)
    [DecidableRel r] (key : α → κ) (amt : α → ℚ) (xs : List α) (k : κ) :
    ((groupSums r key amt xs).lookup k).getD 0 = keySum key amt xs k := by
  unfold groupSums
  rw [lookup_map_pair]
  by_cases h : k ∈ ((xs.map key).dedup).insertionSort r
  · rw [if_pos h]
    rfl
  · rw [if_neg h]
    have hnot : ∀ x ∈ xs, ¬(key x = k) := by
      intro x hx hk
      exact h ((List.mem_insertionSort r).mpr ((List.mem_dedup).mpr
        (List.mem_map.mpr ⟨x, hx, hk⟩)))
    have : xs.filter (fun x => key x = k) = [] := by
      rw [List.filter_eq_nil_iff]
      intro x hx
      simpa using hnot x hx
    simp [keySum, this]

/-! ## Expense breakdown and budget-vs-actual -/

/-- The label shown for each category in the select boxes. -/
def catStr : Category → String
  | Category.Food => "Food"
  | Category.Transport => "Transport"
  | Category.Rent => "Rent"
  | Category.Entertainment => "Entertainment"
  | Category.Utilities => "Utilities"
  | Category.Other => "Other"

/-- The ascending order pandas uses on the `Category` column: alphabetical
order of the category labels (stated over the character lists; this is
exactly `String` order, see `catRel_iff_string_le`). -/
def catRel (a b : Category) : Prop := (catStr a).toList ≤ (catStr b).toList

instance : DecidableRel catRel := fun a b =>
  inferInstanceAs (Decidable ((catStr a).toList ≤ (catStr b).toList))

lemma catRel_iff_string_le (a b : Category) : catRel a b ↔ catStr a ≤ catStr b :=
  (String.le_iff_toList_le).symm

/-- `transactions[transactions['Type'] == 'Expense'].groupby('Category')
.sum(numeric_only=True).reset_index()`: per-category expense sums, one row
per category that has at least one expense. -/
def expenses_by_category (ts : List Transaction) : List (Category × ℚ) :=
  groupSums catRel (fun t => t.category) (fun t => t.amount)
    (ts.filter (fun t => t.type = TType.Expense))

/-- Spec-side formula: total of Expense amounts recorded for category `c`. -/
def expenseSum (ts : List Transaction) (c : Category) : ℚ :=
  ((ts.filter (fun t => t.type = TType.Expense ∧ t.category = c)).map (·.amount)).sum

lemma keySum_expenses (ts : List Transaction) (c : Category) :
    keySum (fun t => t.category) (fun t => t.amount)
      (ts.filter (fun t => t.type = TType.Expense)) c = expenseSum ts c := by
  unfold keySum expenseSum
  rw [List.filter_filter]
  congr 1
  congr 1
  apply List.filter_congr
  intro t _
  by_cases h1 : t.type = TType.Expense <;> by_cases h2 : t.category = c <;>
    simp [h1, h2]

/-- One row of the joined budget-vs-actual DataFrame: columns
`Category, Amount_budget, Amount_actual, Remaining, Percentage Used`. -/
structure BVARow where
  category : Category
  amountBudget : ℚ
  amountActual : ℚ
  remaining : ℚ
  percentageUsed : ℚ
deriving DecidableEq, Repr

/-- `pd.merge(budgets, expenses_by_category, on='Category', how='left',
suffixes=('_budget', '_actual')).fillna(0)` followed by the `Remaining` and
`Percentage Used` column computations.  The left join keeps one output row
per budget row, in budget-store order; a missing right-hand match becomes
`0` via `fillna(0)`. -/
def budget_vs_actual (bs : List Budget) (ts : List Transaction) : List BVARow :=
  bs.map fun b =>
    let actual := ((expenses_by_category ts).lookup b.category).getD 0
    { category := b.category
      amountBudget := b.amount
      amountActual := actual
      remaining := b.amount - actual
      percentageUsed := actual / b.amount * 100 }

lemma actual_eq_expenseSum (ts : List Transaction) (c : Category) :
    ((expenses_by_category ts).lookup c).getD 0 = expenseSum ts c := by
  unfold expenses_by_category
  rw [lookup_groupSums_getD, keySum_expenses]

/-- C2: with distinct budget categories (the C4 invariant), budget-vs-actual
has exactly one row per budget category, in budget-store order; each row's
actual is the category's Expense sum (0 when none), remaining is
limit − actual, percentage used is actual / limit × 100; and no row exists
for a category absent from the budget store. -/
theorem budget_vs_actual_rows (bs : List Budget) (ts : List Transaction)
    (hnd : (bs.map (·.category)).Nodup) :
    (budget_vs_actual bs ts).map (·.category) = bs.map (·.category)
    ∧ (∀ c, c ∈ bs.map (·.category) →
        ((budget_vs_actual bs ts).filter (fun r => r.category = c)).length = 1)
    ∧ (∀ r ∈ budget_vs_actual bs ts, ∃ b ∈ bs, b.category = r.category
        ∧ r.amountBudget = b.amount
        ∧ r.amountActual = expenseSum ts r.category
        ∧ r.remaining = b.amount - expenseSum ts r.category
        ∧ r.percentageUsed = expenseSum ts r.category / b.amount * 100)
    ∧ (∀ r ∈ budget_vs_actual bs ts, r.category ∈ bs.map (·.category)) := by
  have hmap : (budget_vs_actual bs ts).map (·.category) = bs.map (·.category) := by
    unfold budget_vs_actual
    rw [List.map_map]
    rfl
  refine ⟨hmap, ?_, ?_, ?_⟩
  · intro c hc
    have hlen : ∀ (rs : List BVARow), ((rs.filter (fun r => r.category = c)).length =
        ((rs.map (·.category)).filter (fun x => x = c)).length) := by
      intro rs
      induction rs with
      | nil => rfl
      | cons r rs ih =>
          by_cases h : r.category = c <;>
            simp [List.filter_cons, h, ih]
    rw [hlen, hmap]
    have huniq : ∀ (l : List Category), l.Nodup → c ∈ l →
        (l.filter (fun x => x = c)).length = 1 := by
      intro l
      induction l with
      | nil => intro _ h; cases h
      | cons a l ih =>
          intro hndl hmem
          rcases List.mem_cons.mp hmem with rfl | hm
          · rw [List.filter_cons_of_pos (by simp)]
            have hfil : l.filter (fun x => x = c) = [] := by
              rw [List.filter_eq_nil_iff]
              intro x hx
              simp only [decide_eq_true_eq]
              intro hxc
              exact (List.nodup_cons.mp hndl).1 (hxc ▸ hx)
            simp [hfil]
          · have hac : ¬(a = c) := by
              intro hac
              exact (List.nodup_cons.mp hndl).1 (hac ▸ hm)
            rw [List.filter_cons_of_neg (by simpa using hac)]
            exact ih (List.nodup_cons.mp hndl).2 hm
    exact huniq _ hnd hc
  · intro r hr
    unfold budget_vs_actual at hr
    obtain ⟨b, hb, hbr⟩ := List.mem_map.mp hr
    refine ⟨b, hb, ?_⟩
    subst hbr
    simp [actual_eq_expenseSum]
  · intro r hr
    unfold budget_vs_actual at hr
    obtain ⟨b, hb, hbr⟩ := List.mem_map.mp hr
    subst hbr
    exact List.mem_map.mpr ⟨b, hb, rfl⟩

/-- C3: a category with a budget of limit `L` and no recorded Expense
transactions gets a budget-vs-actual row, and every such row has
actual = 0, remaining = L, percentage used = 0. -/
theorem budget_no_expenses_row (bs : List Budget) (ts : List Transaction)
    (c : Category) (L : ℚ)
    (hnd : (bs.map (·.category)).Nodup)
    (hb : (⟨c, L⟩ : Budget) ∈ bs)
    (hne : ∀ t ∈ ts, ¬(t.type = TType.Expense ∧ t.category = c)) :
    (∃ r ∈ budget_vs_actual bs ts, r.category = c)
    ∧ ∀ r ∈ budget_vs_actual bs ts, r.category = c →
        r.amountActual = 0 ∧ r.remaining = L ∧ r.percentageUsed = 0 := by
  have hfil : ts.filter (fun t => t.type = TType.Expense ∧ t.category = c) = [] := by
    rw [List.filter_eq_nil_iff]
    intro t ht
    simpa using hne t ht
  have hsum : expenseSum ts c = 0 := by
    unfold expenseSum
    rw [hfil]
    rfl
  constructor
  · refine ⟨_, List.mem_map.mpr ⟨⟨c, L⟩, hb, rfl⟩, rfl⟩
  · intro r hr hrc
    unfold budget_vs_actual at hr
    obtain ⟨b, hbmem, hbr⟩ := List.mem_map.mp hr
    have hbcat : b.category = c := by
      subst hbr
      exact hrc
    have hbeq : b = ⟨c, L⟩ := by
      apply List.inj_on_of_nodup_map hnd hbmem hb
      simpa using hbcat
    subst hbr
    rw [hbeq]
    simp [actual_eq_expenseSum, hsum]

/-- C8: the expense breakdown contains a `(category, sum)` pair exactly for
the categories with at least one Expense transaction (with the sum being the
category's expense total), each category appearing at most once; a category
with no Expense transactions never appears. -/
theorem expense_breakdown_exact (ts : List Transaction) :
    (∀ c s, (c, s) ∈ expenses_by_category ts ↔
      ((∃ t ∈ ts, t.type = TType.Expense ∧ t.category = c) ∧ s = expenseSum ts c))
    ∧ ((expenses_by_category ts).map Prod.fst).Nodup := by
  constructor
  · intro c s
    unfold expenses_by_category
    rw [mem_groupSums, keySum_expenses]
    constructor
    · rintro ⟨⟨t, ht, hc⟩, rfl⟩
      have htm := List.of_mem_filter ht
      simp only [decide_eq_true_eq] at htm
      exact ⟨⟨t, List.mem_of_mem_filter ht, htm, hc⟩, rfl⟩
    · rintro ⟨⟨t, ht, hty, hc⟩, rfl⟩
      refine ⟨⟨t, List.mem_filter.mpr ⟨ht, by simpa using hty⟩, hc⟩, rfl⟩
  · exact nodup_keys_groupSums _ _ _ _

/-! ## Reachability of the positive-limit invariant (C9) -/

lemma budgets_limits_ge (ops : List Op)
    (h : ∀ op ∈ ops, ∀ c l, op = Op.setBudget c l → (1 : ℚ)/100 ≤ l) :
    ∀ b ∈ (runOps ops).budgets, (1 : ℚ)/100 ≤ b.amount := by
  induction ops using List.reverseRecOn with
  | nil => intro b hb; simp [runOps, initState] at hb
  | append_singleton ops op ih =>
      intro b hb
      rw [runOps_append_one] at hb
      have hops : ∀ op2 ∈ ops, ∀ c l, op2 = Op.setBudget c l → (1 : ℚ)/100 ≤ l :=
        fun op2 hop2 => h op2 (List.mem_append_left _ hop2)
      cases op with
      | addTx t =>
          exact ih hops b hb
      | setBudget c0 l0 =>
          simp only [applyOp, upsert_budget, List.mem_append, List.mem_singleton] at hb
          rcases hb with hb | hb
          · exact ih hops b (List.mem_of_mem_filter hb)
          · subst hb
            exact h _ (List.mem_append_right _ (List.mem_singleton_self _)) c0 l0 rfl

/-- C9: in every reachable state whose `setBudget` inputs respect the
widget's `min_value=0.01` constraint, every budget-vs-actual row has a
strictly positive (hence nonzero) divisor `Amount_budget`, so the division
inside `Percentage Used` is never a division by zero. -/
theorem percentage_used_division_safe (ops : List Op)
    (h : ∀ op ∈ ops, ∀ c l, op = Op.setBudget c l → (1 : ℚ)/100 ≤ l) :
    ∀ r ∈ budget_vs_actual (runOps ops).budgets (runOps ops).transactions,
      0 < r.amountBudget ∧ r.amountBudget ≠ 0
      ∧ r.percentageUsed = r.amountActual / r.amountBudget * 100 := by
  intro r hr
  unfold budget_vs_actual at hr
  obtain ⟨b, hb, hbr⟩ := List.mem_map.mp hr
  have hle := budgets_limits_ge ops h b hb
  have hpos : 0 < b.amount := lt_of_lt_of_le (by norm_num) hle
  subst hbr
  exact ⟨hpos, ne_of_gt hpos, rfl⟩

/-! ## Monthly trend (C5, C6)

`transactions['Month'] = pd.to_datetime(...).dt.to_period('M').astype(str)`
gives the "YYYY-MM" month string; `groupby(['Month', 'Type']).sum(
numeric_only=True).reset_index()` yields one row per distinct
`(Month, Type)` pair, keys sorted ascending, with the group's `Amount` sum. -/

/-- The character for decimal digit `d` (for `d ≤ 9`). -/
def digitChar (d : ℕ) : Char := Char.ofNat (48 + d)

/-- Two-digit zero-padded decimal rendering (months, days). -/
def pad2 (n : ℕ) : List Char := [digitChar (n / 10), digitChar (n % 10)]

/-- Four-digit zero-padded decimal rendering (years; Python dates have
`1 ≤ year ≤ 9999`). -/
def pad4 (n : ℕ) : List Char :=
  [digitChar (n / 1000), digitChar (n / 100 % 10), digitChar (n / 10 % 10),
    digitChar (n % 10)]

/-- The `Month` column value: the date truncated to year-month, rendered
as "YYYY-MM". -/
def monthKey (d : DateD) : String := (pad4 d.year ++ '-' :: pad2 d.month).asString

/-- The label stored in the `Type` column by the radio button. -/
def tstr : TType → String
  | TType.Income => "Income"
  | TType.Expense => "Expense"

/-- Ascending order on `(Month, Type)` group keys: lexicographic on the
month string, then on the type label, exactly as pandas sorts the key
tuples of strings.  Stated over character lists; `String` order is the
same order (`String.le_iff_toList_le`). -/
def keyRel (a b : String × TType) : Prop :=
  a.1.toList < b.1.toList
    ∨ (a.1.toList = b.1.toList ∧ (tstr a.2).toList ≤ (tstr b.2).toList)

instance : DecidableRel keyRel := fun _a _b =>
  inferInstanceAs (Decidable (_ ∨ _))

instance : IsTotal (String × TType) keyRel := by
  constructor
  intro a b
  rcases lt_trichotomy a.1.toList b.1.toList with h | h | h
  · exact Or.inl (Or.inl h)
  · rcases le_total (tstr a.2).toList (tstr b.2).toList with h2 | h2
    · exact Or.inl (Or.inr ⟨h, h2⟩)
    · exact Or.inr (Or.inr ⟨h.symm, h2⟩)
  · exact Or.inr (Or.inl h)

instance : IsTrans (String × TType) keyRel := by
  constructor
  intro a b c hab hbc
  rcases hab with h1 | ⟨h1, h1'⟩ <;> rcases hbc with h2 | ⟨h2, h2'⟩
  · exact Or.inl (lt_trans h1 h2)
  · exact Or.inl (h2 ▸ h1)
  · exact Or.inl (h1 ▸ h2)
  · exact Or.inr ⟨h1.trans h2, le_trans h1' h2'⟩

/-- `monthly_data`: group all transactions by `(Month, Type)` and sum the
`Amount` within each group. -/
def monthly_data (ts : List Transaction) : List ((String × TType) × ℚ) :=
  groupSums keyRel (fun t => (monthKey t.date, t.type)) (fun t => t.amount) ts

/-! ### Summing group sums (for C6) -/

lemma sum_filter_mem_cons {α κ : Type} [DecidableEq κ] (key : α → κ) (amt : α → ℚ)
    (k : κ) (L : List κ) (hk : k ∉ L) (xs : List α) :
    ((xs.filter (fun x => key x ∈ k :: L)).map amt).sum
      = ((xs.filter (fun x => key x = k)).map amt).sum
        + ((xs.filter (fun x => key x ∈ L)).map amt).sum := by
  induction xs with
  | nil => simp
  | cons x xs ih =>
      by_cases h1 : key x = k
      · have h3 : key x ∉ L := h1 ▸ hk
        simp only [List.filter_cons]
        rw [if_pos (by simp [h1]), if_pos (by simp [h1]), if_neg (by simpa using h3)]
        simp only [List.map_cons, List.sum_cons, ih]
        ring
      · by_cases h4 : key x ∈ L
        · simp only [List.filter_cons]
          rw [if_pos (by simp [h4]), if_neg (by simpa using h1), if_pos (by simpa using h4)]
          simp only [List.map_cons, List.sum_cons, ih]
          ring
        · have h5 : key x ∉ k :: L := by simp [h1, h4]
          simp only [List.filter_cons]
          rw [if_neg (by simpa using h5), if_neg (by simpa using h1),
            if_neg (by simpa using h4)]
          exact ih

lemma sum_groups {α κ : Type} [DecidableEq κ] (key : α → κ) (amt : α → ℚ)
    (L : List κ) (hnd : L.Nodup) (xs : List α) :
    (L.map (fun k => ((xs.filter (fun x => key x = k)).map amt).sum)).sum
      = ((xs.filter (fun x => key x ∈ L)).map amt).sum := by
  induction L with
  | nil => simp
  | cons k L ih =>
      obtain ⟨hk, hnd2⟩ := List.nodup_cons.mp hnd
      rw [List.map_cons, List.sum_cons, ih hnd2, sum_filter_mem_cons key amt k L hk]

lemma filter_map_pair (K : List (String × TType)) (f : String × TType → ℚ)
    (ty : TType) :
    ((K.map (fun k => (k, f k))).filter (fun r => r.1.2 = ty)).map (fun r => r.2)
      = (K.filter (fun k => k.2 = ty)).map f := by
  induction K with
  | nil => rfl
  | cons k K ih =>
      by_cases h : k.2 = ty <;> simp [List.filter_cons, h, ih]

/-- C6: summing the monthly-trend amounts over all rows of kind Expense
gives `total_expenses`, and over all rows of kind Income gives
`total_income`. -/
theorem monthly_trend_totals (ts : List Transaction) :
    (((monthly_data ts).filter (fun r => r.1.2 = TType.Expense)).map (fun r => r.2)).sum
        = total_expenses ts
    ∧ (((monthly_data ts).filter (fun r => r.1.2 = TType.Income)).map (fun r => r.2)).sum
        = total_income ts := by
  have key : ∀ ty : TType,
      (((monthly_data ts).filter (fun r => r.1.2 = ty)).map (fun r => r.2)).sum
        = ((ts.filter (fun t => t.type = ty)).map (·.amount)).sum := by
    intro ty
    unfold monthly_data groupSums
    rw [filter_map_pair]
    set keyF : Transaction → String × TType := fun t => (monthKey t.date, t.type) with hkeyF
    set D := (ts.map keyF).dedup with hD
    have hperm : List.Perm ((D.insertionSort keyRel).filter (fun k => k.2 = ty))
        (D.filter (fun k => k.2 = ty)) :=
      (List.perm_insertionSort keyRel D).filter _
    rw [List.Perm.sum_eq (hperm.map _)]
    have hnd : (D.filter (fun k => k.2 = ty)).Nodup := (List.nodup_dedup _).filter _
    have := sum_groups keyF (fun t => t.amount) (D.filter (fun k => k.2 = ty)) hnd ts
    unfold keySum
    rw [this]
    congr 1
    congr 1
    apply List.filter_congr
    intro t ht
    have hmem : keyF t ∈ D := by
      rw [hD]
      exact (List.mem_dedup).mpr (List.mem_map.mpr ⟨t, ht, rfl⟩)
    by_cases hty : t.type = ty
    · have : (keyF t).2 = ty := hty
      simp [List.mem_filter, hmem, this, hty]
    · have : ¬((keyF t).2 = ty) := hty
      simp [List.mem_filter, this, hty]
  exact ⟨key TType.Expense, key TType.Income⟩

/-! ### The "YYYY-MM" string order is the chronological order (for C5) -/

lemma digitChar_lt : ∀ a, a < 10 → ∀ b, b < 10 →
    (digitChar a < digitChar b ↔ a < b) := by decide

lemma digitChar_inj : ∀ a, a < 10 → ∀ b, b < 10 →
    (digitChar a = digitChar b ↔ a = b) := by decide

lemma lex_cons_iff {α : Type} {r : α → α → Prop} {x y : α} {xs ys : List α} :
    List.Lex r (x :: xs) (y :: ys) ↔ r x y ∨ (x = y ∧ List.Lex r xs ys) := by
  constructor
  · intro h
    cases h with
    | rel h => exact Or.inl h
    | cons h => exact Or.inr ⟨rfl, h⟩
  · rintro (h | ⟨rfl, h⟩)
    · exact List.Lex.rel h
    · exact List.Lex.cons h

lemma lex_nil_iff {α : Type} {r : α → α → Prop} :
    List.Lex r ([] : List α) [] ↔ False := by
  constructor
  · intro h
    cases h
  · exact False.elim

lemma monthKey_lt_iff (d1 d2 : DateD) (h1 : d1.year ≤ 9999) (h2 : d2.year ≤ 9999)
    (hm1 : d1.month ≤ 99) (hm2 : d2.month ≤ 99) :
    monthKey d1 < monthKey d2 ↔
      (d1.year < d2.year ∨ (d1.year = d2.year ∧ d1.month < d2.month)) := by
  rw [String.lt_iff_toList_lt]
  have e1 : (monthKey d1).toList = pad4 d1.year ++ '-' :: pad2 d1.month := rfl
  have e2 : (monthKey d2).toList = pad4 d2.year ++ '-' :: pad2 d2.month := rfl
  rw [e1, e2]
  show List.Lex (· < ·) _ _ ↔ _
  simp only [pad4, pad2, List.cons_append, List.nil_append]
  simp only [lex_cons_iff, lex_nil_iff]
  rw [digitChar_lt (d1.year / 1000) (by omega) (d2.year / 1000) (by omega),
    digitChar_inj (d1.year / 1000) (by omega) (d2.year / 1000) (by omega),
    digitChar_lt (d1.year / 100 % 10) (by omega) (d2.year / 100 % 10) (by omega),
    digitChar_inj (d1.year / 100 % 10) (by omega) (d2.year / 100 % 10) (by omega),
    digitChar_lt (d1.year / 10 % 10) (by omega) (d2.year / 10 % 10) (by omega),
    digitChar_inj (d1.year / 10 % 10) (by omega) (d2.year / 10 % 10) (by omega),
    digitChar_lt (d1.year % 10) (by omega) (d2.year % 10) (by omega),
    digitChar_inj (d1.year % 10) (by omega) (d2.year % 10) (by omega),
    digitChar_lt (d1.month / 10) (by omega) (d2.month / 10) (by omega),
    digitChar_inj (d1.month / 10) (by omega) (d2.month / 10) (by omega),
    digitChar_lt (d1.month % 10) (by omega) (d2.month % 10) (by omega),
    digitChar_inj (d1.month % 10) (by omega) (d2.month % 10) (by omega)]
  have hdash1 : (('-' : Char) < '-') = False := eq_false (by decide)
  have hdash2 : (('-' : Char) = '-') = True := eq_true rfl
  simp only [hdash1, hdash2, true_and, false_or, false_and, or_false]
  have hY : (d1.year / 1000 < d2.year / 1000 ∨
      d1.year / 1000 = d2.year / 1000 ∧
        (d1.year / 100 % 10 < d2.year / 100 % 10 ∨
          d1.year / 100 % 10 = d2.year / 100 % 10 ∧
            (d1.year / 10 % 10 < d2.year / 10 % 10 ∨
              d1.year / 10 % 10 = d2.year / 10 % 10 ∧ d1.year % 10 < d2.year % 10)))
      ↔ d1.year < d2.year := by omega
  have hE : (d1.year / 1000 = d2.year / 1000 ∧ d1.year / 100 % 10 = d2.year / 100 % 10
      ∧ d1.year / 10 % 10 = d2.year / 10 % 10 ∧ d1.year % 10 = d2.year % 10)
      ↔ d1.year = d2.year := by omega
  have hM : (d1.month / 10 < d2.month / 10 ∨
      (d1.month / 10 = d2.month / 10 ∧ d1.month % 10 < d2.month % 10))
      ↔ d1.month < d2.month := by omega
  rw [← hY, ← hE, ← hM]
  constructor
  · rintro (h | ⟨e3, h | ⟨e2, h | ⟨e1, h | ⟨e0, hq2 | ⟨em1, hq1 | ⟨em0, f⟩⟩⟩⟩⟩⟩)
    · exact Or.inl (Or.inl h)
    · exact Or.inl (Or.inr ⟨e3, Or.inl h⟩)
    · exact Or.inl (Or.inr ⟨e3, Or.inr ⟨e2, Or.inl h⟩⟩)
    · exact Or.inl (Or.inr ⟨e3, Or.inr ⟨e2, Or.inr ⟨e1, h⟩⟩⟩)
    · exact Or.inr ⟨⟨e3, e2, e1, e0⟩, Or.inl hq2⟩
    · exact Or.inr ⟨⟨e3, e2, e1, e0⟩, Or.inr ⟨em1, hq1⟩⟩
    · exact f.elim
  · rintro (h | ⟨⟨e3, e2, e1, e0⟩, hq2 | ⟨em1, hq1⟩⟩)
    · rcases h with h | ⟨e3, h | ⟨e2, h | ⟨e1, h⟩⟩⟩
      · exact Or.inl h
      · exact Or.inr ⟨e3, Or.inl h⟩
      · exact Or.inr ⟨e3, Or.inr ⟨e2, Or.inl h⟩⟩
      · exact Or.inr ⟨e3, Or.inr ⟨e2, Or.inr ⟨e1, Or.inl h⟩⟩⟩
    · exact Or.inr ⟨e3, Or.inr ⟨e2, Or.inr ⟨e1, Or.inr ⟨e0, Or.inl hq2⟩⟩⟩⟩
    · exact Or.inr ⟨e3, Or.inr ⟨e2, Or.inr ⟨e1, Or.inr ⟨e0, Or.inr ⟨em1, Or.inl hq1⟩⟩⟩⟩⟩

lemma monthKey_le_iff (d1 d2 : DateD) (h1 : d1.year ≤ 9999) (h2 : d2.year ≤ 9999)
    (hm1 : d1.month ≤ 99) (hm2 : d2.month ≤ 99) :
    monthKey d1 ≤ monthKey d2 ↔
      (d1.year < d2.year ∨ (d1.year = d2.year ∧ d1.month ≤ d2.month)) := by
  rw [← not_lt, monthKey_lt_iff d2 d1 h2 h1 hm2 hm1]
  omega

/-- C5: the monthly trend has one row per non-empty `(Month, Type)` group
(and no others), each row's amount being the group's sum; month keys are
the "YYYY-MM" rendering of the transaction's year-month; rows are ordered
ascending by month, the month-string order agreeing with chronological
order for valid dates. -/
theorem monthly_trend_rows (ts : List Transaction)
    (hdate : ∀ t ∈ ts, t.date.year ≤ 9999 ∧ t.date.month ≤ 12) :
    (∀ k s, ((k, s) ∈ monthly_data ts ↔
      ((∃ t ∈ ts, (monthKey t.date, t.type) = k)
        ∧ s = ((ts.filter (fun t => (monthKey t.date, t.type) = k)).map (·.amount)).sum)))
    ∧ ((monthly_data ts).map Prod.fst).Nodup
    ∧ (∀ r ∈ monthly_data ts, ∃ t ∈ ts, r.1.1 = monthKey t.date
        ∧ (monthKey t.date).toList = pad4 t.date.year ++ '-' :: pad2 t.date.month)
    ∧ ((monthly_data ts).map (fun r => r.1.1)).Sorted (· ≤ ·)
    ∧ (∀ t1 ∈ ts, ∀ t2 ∈ ts, (monthKey t1.date ≤ monthKey t2.date ↔
        (t1.date.year < t2.date.year
          ∨ (t1.date.year = t2.date.year ∧ t1.date.month ≤ t2.date.month)))) := by
  refine ⟨?_, nodup_keys_groupSums _ _ _ _, ?_, ?_, ?_⟩
  · intro k s
    unfold monthly_data
    rw [mem_groupSums]
    unfold keySum
    exact Iff.rfl
  · intro r hr
    unfold monthly_data groupSums at hr
    obtain ⟨k, hk, hkr⟩ := List.mem_map.mp hr
    rw [List.mem_insertionSort, List.mem_dedup] at hk
    obtain ⟨t, ht, hkt⟩ := List.mem_map.mp hk
    refine ⟨t, ht, ?_, rfl⟩
    rw [← hkr, ← hkt]
  · have hsor : List.Sorted keyRel
        (((ts.map (fun t => (monthKey t.date, t.type))).dedup).insertionSort keyRel) :=
      List.sorted_insertionSort keyRel _
    unfold monthly_data groupSums
    rw [List.map_map]
    have : ((fun r : (String × TType) × ℚ => r.1.1) ∘
        (fun k => (k, keySum (fun t => (monthKey t.date, t.type)) (fun t => t.amount) ts k)))
        = fun k : String × TType => k.1 := rfl
    rw [this]
    refine List.Pairwise.map _ ?_ hsor
    intro a b hab
    rcases hab with h | ⟨h, _⟩
    · exact le_of_lt (String.lt_iff_toList_lt.mpr h)
    · exact le_of_eq (String.toList_inj.mp h)
  · intro t1 ht1 t2 ht2
    obtain ⟨hy1, hm1⟩ := hdate t1 ht1
    obtain ⟨hy2, hm2⟩ := hdate t2 ht2
    exact monthKey_le_iff t1.date t2.date hy1 hy2 (by omega) (by omega)

/-! ## CSV export (C7)

`st.session_state.transactions.to_csv(index=False).encode('utf-8')`: pandas
writes the header line `Date,Description,Category,Amount,Type`, then one
line per row in store order, each line terminated by a newline.  Fields are
quoted minimally (`csv.QUOTE_MINIMAL`): a field containing a comma, a
double quote, or a line break is wrapped in double quotes with inner
quotes doubled.  Amounts are decimal-rendered rationals (the widget
constrains them to positive multiples of 0.01, so two decimal places are
exact); `parseCSV` is a minimal-quoting CSV reader. -/
def needsQuote (cs : List Char) : Bool :=
  cs.any (fun c => c = ',' || c = '"' || c = '\n' || c = '\r')

def escapeInner (cs : List Char) : List Char :=
  cs.flatMap (fun c => if c = '"' then ['"', '"'] else [c])

def renderField (cs : List Char) : List Char :=
  if needsQuote cs then '"' :: (escapeInner cs ++ ['"']) else cs

def joinFields : List (List Char) → List Char
  | [] => []
  | [f] => renderField f
  | f :: fs => renderField f ++ ',' :: joinFields fs

def writeCSV (rows : List (List (List Char))) : List Char :=
  rows.flatMap (fun r => joinFields r ++ ['\n'])

def parseQuoted : List Char → Option (List Char × List Char)
  | [] => none
  | c :: rest =>
    if c = '"' then
      match rest with
      | [] => some ([], [])
      | c2 :: rest2 =>
        if c2 = '"' then
          (parseQuoted rest2).map (fun p => ('"' :: p.1, p.2))
        else some ([], rest)
    else (parseQuoted rest).map (fun p => (c :: p.1, p.2))

lemma parseQuoted_cons_ne (c2 : Char) (rest2 : List Char) (hne : ¬c2 = '"') :
    parseQuoted (c2 :: rest2) = (parseQuoted rest2).map (fun p => (c2 :: p.1, p.2)) := by
  rw [parseQuoted.eq_def]
  dsimp only
  rw [if_neg hne]

lemma parseQuoted_quote_ne (c2 : Char) (rest2 : List Char) (hne : ¬c2 = '"') :
    parseQuoted ('"' :: c2 :: rest2) = some ([], c2 :: rest2) := by
  rw [parseQuoted.eq_def]
  dsimp only
  rw [if_pos rfl]
  rw [if_neg hne]

lemma parseQuoted_rest_lt (cs : List Char) : ∀ f r,
    parseQuoted cs = some (f, r) → r.length < cs.length := by
  induction cs using parseQuoted.induct with
  | case1 =>
      intro f r h
      simp [parseQuoted] at h
  | case2 =>
      intro f r h
      have he : parseQuoted ['"'] = some ([], []) := rfl
      rw [he] at h
      injection h with h1
      injection h1 with h2 h3
      rw [← h3]
      simp
  | case3 rest2 ih =>
      intro f r h
      have he : parseQuoted ('"' :: '"' :: rest2)
          = (parseQuoted rest2).map (fun p => ('"' :: p.1, p.2)) := rfl
      rw [he, Option.map_eq_some'] at h
      obtain ⟨⟨f2, r2⟩, hp, heq⟩ := h
      injection heq with h1 h2
      subst h2
      have := ih f2 _ hp
      simp only [List.length_cons]
      omega
  | case4 c2 rest2 hne =>
      intro f r h
      rw [parseQuoted_quote_ne c2 rest2 hne] at h
      injection h with h1
      injection h1 with h2 h3
      rw [← h3]
      simp
  | case5 c2 rest2 hne ih =>
      intro f r h
      rw [parseQuoted_cons_ne c2 rest2 hne, Option.map_eq_some'] at h
      obtain ⟨⟨f2, r2⟩, hp, heq⟩ := h
      injection heq with h1 h2
      subst h2
      have := ih f2 _ hp
      simp only [List.length_cons]
      omega

lemma parseQuoted_roundtrip (f : List Char) : ∀ (rest : List Char),
    (rest = [] ∨ ∃ c r2, rest = c :: r2 ∧ c ≠ '"') →
    parseQuoted (escapeInner f ++ '"' :: rest) = some (f, rest) := by
  induction f with
  | nil =>
      intro rest hrest
      have he : escapeInner [] = [] := rfl
      rw [he, List.nil_append]
      rcases hrest with rfl | ⟨c, r2, rfl, hc⟩
      · rfl
      · rw [parseQuoted_quote_ne c r2 hc]
  | cons c f ih =>
      intro rest hrest
      by_cases hc : c = '"'
      · subst hc
        have he : escapeInner ('"' :: f) = '"' :: '"' :: escapeInner f := rfl
        rw [he]
        simp only [List.cons_append]
        have hrec : parseQuoted ('"' :: '"' :: (escapeInner f ++ '"' :: rest))
            = (parseQuoted (escapeInner f ++ '"' :: rest)).map
                (fun p => ('"' :: p.1, p.2)) := rfl
        rw [hrec, ih rest hrest]
        rfl
      · have he : escapeInner (c :: f) = c :: escapeInner f := by
          simp [escapeInner, hc]
        rw [he]
        simp only [List.cons_append]
        rw [parseQuoted_cons_ne c _ hc, ih rest hrest]
        rfl

def parseField (cs : List Char) : Option (List Char × List Char) :=
  match cs with
  | [] => some ([], [])
  | c :: rest =>
    if c = '"' then parseQuoted rest
    else some ((c :: rest).takeWhile (fun x => x ≠ ',' ∧ x ≠ '\n'),
               (c :: rest).dropWhile (fun x => x ≠ ',' ∧ x ≠ '\n'))

lemma parseField_quote (rest : List Char) :
    parseField ('"' :: rest) = parseQuoted rest := by
  rw [parseField.eq_def]
  dsimp only
  rw [if_pos rfl]

lemma parseField_cons (c : Char) (rest : List Char) (hc : ¬c = '"') :
    parseField (c :: rest)
      = some ((c :: rest).takeWhile (fun x => x ≠ ',' ∧ x ≠ '\n'),
          (c :: rest).dropWhile (fun x => x ≠ ',' ∧ x ≠ '\n')) := by
  rw [parseField.eq_def]
  dsimp only
  rw [if_neg hc]

lemma dropWhile_length_le {α : Type} (p : α → Bool) (l : List α) :
    (l.dropWhile p).length ≤ l.length := by
  induction l with
  | nil => simp
  | cons a l ih =>
      rw [List.dropWhile_cons]
      by_cases h : p a = true
      · rw [if_pos h]
        simp only [List.length_cons]
        omega
      · rw [if_neg h]

lemma parseField_rest_le (cs f r : List Char) (h : parseField cs = some (f, r)) :
    r.length ≤ cs.length := by
  cases cs with
  | nil =>
      have he : parseField [] = some ([], []) := rfl
      rw [he] at h
      injection h with h1
      injection h1 with h2 h3
      rw [← h3]
  | cons c rest =>
      by_cases hc : c = '"'
      · subst hc
        rw [parseField_quote] at h
        have := parseQuoted_rest_lt rest f r h
        simp only [List.length_cons]
        omega
      · rw [parseField_cons c rest hc] at h
        injection h with h1
        injection h1 with h2 h3
        rw [← h3]
        exact dropWhile_length_le _ _

lemma takeWhile_append_cons {α : Type} (p : α → Bool) (l1 : List α) (x : α) (l2 : List α)
    (h1 : ∀ c ∈ l1, p c = true) (hx : p x = false) :
    (l1 ++ x :: l2).takeWhile p = l1 ∧ (l1 ++ x :: l2).dropWhile p = x :: l2 := by
  induction l1 with
  | nil => simp [List.takeWhile_cons, List.dropWhile_cons, hx]
  | cons a l1 ih =>
      have ha := h1 a (List.mem_cons_self a l1)
      have := ih (fun c hc => h1 c (List.mem_cons_of_mem a hc))
      simp [List.takeWhile_cons, List.dropWhile_cons, ha, this]

lemma takeWhile_all {α : Type} (p : α → Bool) (l : List α)
    (h : ∀ c ∈ l, p c = true) :
    l.takeWhile p = l ∧ l.dropWhile p = [] := by
  induction l with
  | nil => simp
  | cons a l ih =>
      have ha := h a (List.mem_cons_self a l)
      have := ih (fun c hc => h c (List.mem_cons_of_mem a hc))
      simp [List.takeWhile_cons, List.dropWhile_cons, ha, this]

lemma parseField_renderField (f rest : List Char)
    (hrest : rest = [] ∨ (∃ r2, rest = ',' :: r2) ∨ (∃ r2, rest = '\n' :: r2)) :
    parseField (renderField f ++ rest) = some (f, rest) := by
  by_cases hq : needsQuote f = true
  · rw [renderField, if_pos hq]
    have hl : ('"' :: (escapeInner f ++ ['"'])) ++ rest
        = '"' :: (escapeInner f ++ '"' :: rest) := by
      simp
    rw [hl, parseField_quote]
    apply parseQuoted_roundtrip
    rcases hrest with rfl | ⟨r2, rfl⟩ | ⟨r2, rfl⟩
    · exact Or.inl rfl
    · exact Or.inr ⟨',', r2, rfl, by decide⟩
    · exact Or.inr ⟨'\n', r2, rfl, by decide⟩
  · rw [renderField, if_neg hq]
    have hok : ∀ c ∈ f, (fun x => decide (x ≠ ',' ∧ x ≠ '\n')) c = true := by
      intro c hc
      simp only [decide_eq_true_eq, ne_eq]
      constructor
      · intro hcc
        exact hq (by simp [needsQuote, List.any_eq_true]; exact ⟨c, hc, by simp [hcc]⟩)
      · intro hcc
        exact hq (by simp [needsQuote, List.any_eq_true]; exact ⟨c, hc, by simp [hcc]⟩)
    have hnoquote : ∀ c ∈ f, ¬c = '"' := by
      intro c hc hcc
      exact hq (by simp [needsQuote, List.any_eq_true]; exact ⟨c, hc, by simp [hcc]⟩)
    rcases hrest with rfl | ⟨r2, rfl⟩ | ⟨r2, rfl⟩
    · rw [List.append_nil]
      match f, hok, hnoquote with
      | [], _, _ => rfl
      | c :: f2, hok, hnoquote =>
          rw [parseField_cons c f2 (hnoquote c (List.mem_cons_self c f2))]
          have := takeWhile_all (fun x => decide (x ≠ ',' ∧ x ≠ '\n')) (c :: f2) hok
          rw [this.1, this.2]
    · match f, hok, hnoquote with
      | [], _, _ =>
          rw [List.nil_append]
          rw [parseField_cons ',' r2 (by decide)]
          have h1 : (fun x => decide (x ≠ ',' ∧ x ≠ '\n')) ',' = false := by decide
          simp [List.takeWhile_cons, List.dropWhile_cons, h1]
      | c :: f2, hok, hnoquote =>
          rw [List.cons_append]
          rw [parseField_cons c _ (hnoquote c (List.mem_cons_self c f2))]
          rw [← List.cons_append]
          have := takeWhile_append_cons (fun x => decide (x ≠ ',' ∧ x ≠ '\n'))
            (c :: f2) ',' r2 hok (by decide)
          rw [this.1, this.2]
    · match f, hok, hnoquote with
      | [], _, _ =>
          rw [List.nil_append]
          rw [parseField_cons '\n' r2 (by decide)]
          have h1 : (fun x => decide (x ≠ ',' ∧ x ≠ '\n')) '\n' = false := by decide
          simp [List.takeWhile_cons, List.dropWhile_cons, h1]
      | c :: f2, hok, hnoquote =>
          rw [List.cons_append]
          rw [parseField_cons c _ (hnoquote c (List.mem_cons_self c f2))]
          rw [← List.cons_append]
          have := takeWhile_append_cons (fun x => decide (x ≠ ',' ∧ x ≠ '\n'))
            (c :: f2) '\n' r2 hok (by decide)
          rw [this.1, this.2]

def parseRecord (cs : List Char) : Option (List (List Char) × List Char) :=
  match h : parseField cs with
  | none => none
  | some (f, []) => some ([f], [])
  | some (f, c :: r2) =>
    if c = ',' then (parseRecord r2).map (fun p => (f :: p.1, p.2))
    else if c = '\n' then some ([f], r2)
    else none
termination_by cs.length
decreasing_by
  have := parseField_rest_le cs f (c :: r2) h
  simp only [List.length_cons] at this
  omega

lemma parseRecord_none (cs : List Char) (hf : parseField cs = none) :
    parseRecord cs = none := by
  rw [parseRecord.eq_def]
  split
  · rfl
  · rename_i f2 heq
    rw [hf] at heq
    cases heq
  · rename_i f2 c2 r3 heq
    rw [hf] at heq
    cases heq

lemma parseRecord_last (cs f : List Char) (hf : parseField cs = some (f, [])) :
    parseRecord cs = some ([f], []) := by
  rw [parseRecord.eq_def]
  split
  · rename_i heq
    rw [hf] at heq
    cases heq
  · rename_i f2 heq
    rw [hf] at heq
    injection heq with h1
    injection h1 with h2 h3
    subst h2
    rfl
  · rename_i f2 c2 r3 heq
    rw [hf] at heq
    injection heq with h1
    injection h1 with h2 h3
    cases h3

lemma parseRecord_comma (cs f r2 : List Char)
    (hf : parseField cs = some (f, ',' :: r2)) :
    parseRecord cs = (parseRecord r2).map (fun p => (f :: p.1, p.2)) := by
  rw [parseRecord.eq_def]
  split
  · rename_i heq
    rw [hf] at heq
    cases heq
  · rename_i f2 heq
    rw [hf] at heq
    injection heq with h1
    injection h1 with h2 h3
    cases h3
  · rename_i f2 c2 r3 heq
    rw [hf] at heq
    injection heq with h1
    injection h1 with h2 h3
    injection h3 with h4 h5
    subst h2
    subst h4
    subst h5
    rw [if_pos rfl]

lemma parseRecord_newline (cs f r2 : List Char)
    (hf : parseField cs = some (f, '\n' :: r2)) :
    parseRecord cs = some ([f], r2) := by
  rw [parseRecord.eq_def]
  split
  · rename_i heq
    rw [hf] at heq
    cases heq
  · rename_i f2 heq
    rw [hf] at heq
    injection heq with h1
    injection h1 with h2 h3
    cases h3
  · rename_i f2 c2 r3 heq
    rw [hf] at heq
    injection heq with h1
    injection h1 with h2 h3
    injection h3 with h4 h5
    subst h2
    subst h4
    subst h5
    rw [if_neg (by decide), if_pos rfl]

lemma parseRecord_other (cs f : List Char) (c : Char) (r2 : List Char)
    (hf : parseField cs = some (f, c :: r2)) (hc : ¬c = ',') (hn : ¬c = '\n') :
    parseRecord cs = none := by
  rw [parseRecord.eq_def]
  split
  · rfl
  · rename_i f2 heq
    rw [hf] at heq
    injection heq with h1
    injection h1 with h2 h3
    cases h3
  · rename_i f2 c2 r3 heq
    rw [hf] at heq
    injection heq with h1
    injection h1 with h2 h3
    injection h3 with h4 h5
    subst h4
    rw [if_neg hc, if_neg hn]

lemma parseRecord_rest (cs : List Char) : ∀ fs rest,
    parseRecord cs = some (fs, rest) → rest.length < cs.length ∨ rest = [] := by
  induction cs using parseRecord.induct with
  | case1 x hf =>
      intro fs rest h
      rw [parseRecord_none x hf] at h
      cases h
  | case2 x f hf =>
      intro fs rest h
      rw [parseRecord_last x f hf] at h
      injection h with h1
      injection h1 with h2 h3
      exact Or.inr h3.symm
  | case3 x f r2 hf ih =>
      intro fs rest h
      rw [parseRecord_comma x f r2 hf, Option.map_eq_some'] at h
      obtain ⟨⟨fs2, r3⟩, hp, heq⟩ := h
      dsimp only at heq
      injection heq with h1 h2
      subst h2
      have hle := parseField_rest_le x f (',' :: r2) hf
      simp only [List.length_cons] at hle
      rcases ih fs2 _ hp with hlt | rfl
      · left
        omega
      · right
        rfl
  | case4 x f r2 hf hne =>
      intro fs rest h
      rw [parseRecord_newline x f r2 hf] at h
      injection h with h1
      injection h1 with h2 h3
      subst h3
      have hle := parseField_rest_le x f ('\n' :: r2) hf
      simp only [List.length_cons] at hle
      left
      omega
  | case5 x f c r2 hf hc hn =>
      intro fs rest h
      rw [parseRecord_other x f c r2 hf hc hn] at h
      cases h

lemma parseRecord_roundtrip : ∀ (fs : List (List Char)) (rest : List Char), fs ≠ [] →
    parseRecord (joinFields fs ++ '\n' :: rest) = some (fs, rest) := by
  intro fs
  induction fs with
  | nil =>
      intro rest h
      exact absurd rfl h
  | cons f fs ih =>
      intro rest _
      cases fs with
      | nil =>
          have hj : joinFields [f] = renderField f := rfl
          rw [hj]
          exact parseRecord_newline _ f rest
            (parseField_renderField f ('\n' :: rest) (Or.inr (Or.inr ⟨rest, rfl⟩)))
      | cons f2 fs2 =>
          have hj : joinFields (f :: f2 :: fs2)
              = renderField f ++ ',' :: joinFields (f2 :: fs2) := rfl
          rw [hj]
          have hl : (renderField f ++ ',' :: joinFields (f2 :: fs2)) ++ '\n' :: rest
              = renderField f ++ ',' :: (joinFields (f2 :: fs2) ++ '\n' :: rest) := by
            simp
          rw [hl]
          rw [parseRecord_comma _ f _
            (parseField_renderField f _ (Or.inr (Or.inl ⟨_, rfl⟩)))]
          rw [ih rest (by simp)]
          rfl

def parseCSV (cs : List Char) : Option (List (List (List Char))) :=
  if hcs : cs = [] then some []
  else
    match h : parseRecord cs with
    | none => none
    | some (r, rest) => (parseCSV rest).map (fun rs => r :: rs)
termination_by cs.length
decreasing_by
  rcases parseRecord_rest cs r rest h with hlt | hnil
  · exact hlt
  · rw [hnil]
    simp only [List.length_nil]
    exact List.length_pos.mpr hcs

lemma parseCSV_nil : parseCSV [] = some [] := by
  rw [parseCSV.eq_def]
  rw [dif_pos rfl]

lemma parseCSV_record (cs : List Char) (hcs : cs ≠ []) (r : List (List Char))
    (rest : List Char) (hr : parseRecord cs = some (r, rest)) :
    parseCSV cs = (parseCSV rest).map (fun rs => r :: rs) := by
  rw [parseCSV.eq_def, dif_neg hcs]
  split
  · rename_i heq
    rw [hr] at heq
    cases heq
  · rename_i r2 rest2 heq
    rw [hr] at heq
    injection heq with h1
    injection h1 with h2 h3
    subst h2
    subst h3
    rfl

lemma parseCSV_roundtrip : ∀ (rows : List (List (List Char))),
    (∀ r ∈ rows, r ≠ []) → parseCSV (writeCSV rows) = some rows := by
  intro rows
  induction rows with
  | nil =>
      intro _
      exact parseCSV_nil
  | cons r rows ih =>
      intro h
      have hr : r ≠ [] := h r (List.mem_cons_self r rows)
      have hw : writeCSV (r :: rows) = joinFields r ++ '\n' :: writeCSV rows := by
        simp [writeCSV]
      rw [hw]
      have hne : joinFields r ++ '\n' :: writeCSV rows ≠ [] := by
        intro hemp
        have := congrArg List.length hemp
        simp at this
      rw [parseCSV_record _ hne r (writeCSV rows)
        (parseRecord_roundtrip r (writeCSV rows) hr)]
      rw [ih (fun r2 hr2 => h r2 (List.mem_cons_of_mem r hr2))]
      rfl

/-! ### The exported fields and their exact re-parsers -/

/-- Numeric value of a decimal digit character. -/
def digitVal (c : Char) : ℕ := c.toNat - 48

/-- Decimal rendering of a natural number (as `str` in Python). -/
def natChars (n : ℕ) : List Char :=
  if n = 0 then ['0'] else ((Nat.digits 10 n).reverse.map digitChar)

/-- Exact decimal re-parser for `natChars`. -/
def parseNatChars (cs : List Char) : Option ℕ :=
  if cs ≠ [] ∧ cs.all Char.isDigit then
    some (Nat.ofDigits 10 ((cs.map digitVal).reverse))
  else none

/-- Two-digit field parser (month, day, cents). -/
def parse2 (cs : List Char) : Option ℕ :=
  match cs with
  | [a, b] => if a.isDigit ∧ b.isDigit then some (10 * digitVal a + digitVal b) else none
  | _ => none

/-- Four-digit field parser (year). -/
def parse4 (cs : List Char) : Option ℕ :=
  match cs with
  | [a, b, c, d] =>
    if a.isDigit ∧ b.isDigit ∧ c.isDigit ∧ d.isDigit then
      some (1000 * digitVal a + 100 * digitVal b + 10 * digitVal c + digitVal d)
    else none
  | _ => none

/-- `str(date)`: the ISO "YYYY-MM-DD" rendering written to the `Date` column. -/
def dateChars (d : DateD) : List Char :=
  pad4 d.year ++ '-' :: pad2 d.month ++ '-' :: pad2 d.day

/-- Exact re-parser for `dateChars`. -/
def parseDateChars (cs : List Char) : Option DateD :=
  match cs with
  | [y3, y2, y1, y0, s1, m1, m0, s2, d1, d0] =>
    if s1 = '-' ∧ s2 = '-' then
      match parse4 [y3, y2, y1, y0], parse2 [m1, m0], parse2 [d1, d0] with
      | some y, some m, some d => some ⟨y, m, d⟩
      | _, _, _ => none
    else none
  | _ => none

/-- The amount in hundredths (the widget constrains amounts to positive
multiples of 0.01, so this is exact on every reachable amount). -/
def amountCents (q : ℚ) : ℕ := (q * 100).num.toNat

/-- Decimal rendering of the `Amount` column with two decimal places. -/
def amountChars (q : ℚ) : List Char :=
  natChars (amountCents q / 100) ++ '.' :: pad2 (amountCents q % 100)

/-- Exact re-parser for `amountChars`: integer part, dot, two cent digits. -/
def parseAmountChars (cs : List Char) : Option ℚ :=
  match cs.dropWhile (fun c => c ≠ '.') with
  | c :: fr =>
    if c = '.' then
      match parseNatChars (cs.takeWhile (fun c => c ≠ '.')), parse2 fr with
      | some n, some f => some (((100 * n + f : ℕ) : ℚ) / 100)
      | _, _ => none
    else none
  | [] => none

/-- Re-parser for the `Category` column labels. -/
def parseCatChars (cs : List Char) : Option Category :=
  if cs = "Food".toList then some Category.Food
  else if cs = "Transport".toList then some Category.Transport
  else if cs = "Rent".toList then some Category.Rent
  else if cs = "Entertainment".toList then some Category.Entertainment
  else if cs = "Utilities".toList then some Category.Utilities
  else if cs = "Other".toList then some Category.Other
  else none

/-- Re-parser for the `Type` column labels. -/
def parseTypeChars (cs : List Char) : Option TType :=
  if cs = "Income".toList then some TType.Income
  else if cs = "Expense".toList then some TType.Expense
  else none

/-- The header row written by `to_csv(index=False)`. -/
def headerFields : List (List Char) :=
  ["Date".toList, "Description".toList, "Category".toList, "Amount".toList,
    "Type".toList]

/-- The five rendered fields of one transaction row. -/
def toRow (t : Transaction) : List (List Char) :=
  [dateChars t.date, t.description.toList, (catStr t.category).toList,
    amountChars t.amount, (tstr t.type).toList]

/-- The full CSV export: header row then one row per transaction in
current store order (no sorting at export time). -/
def exportCSV (ts : List Transaction) : String :=
  (writeCSV (headerFields :: ts.map toRow)).asString

/-- Recover a transaction from its five re-parsed fields. -/
def fromRow (r : List (List Char)) : Option Transaction :=
  match r with
  | [dc, desc, cc, ac, tc] =>
    match parseDateChars dc, parseCatChars cc, parseAmountChars ac,
        parseTypeChars tc with
    | some d, some c, some a, some ty => some ⟨d, desc.asString, c, a, ty⟩
    | _, _, _, _ => none
  | _ => none

lemma digitVal_digitChar : ∀ d, d < 10 → digitVal (digitChar d) = d := by decide

lemma isDigit_digitChar : ∀ d, d < 10 → (digitChar d).isDigit = true := by decide

lemma natChars_roundtrip (n : ℕ) : parseNatChars (natChars n) = some n := by
  by_cases hn : n = 0
  · subst hn
    decide
  · have hne : Nat.digits 10 n ≠ [] := Nat.digits_ne_nil_iff_ne_zero.mpr hn
    have hlt : ∀ d ∈ Nat.digits 10 n, d < 10 := fun d hd =>
      Nat.digits_lt_base (by norm_num) hd
    rw [natChars, if_neg hn]
    have hnonnil : ((Nat.digits 10 n).reverse.map digitChar) ≠ [] := by
      intro hemp
      have := congrArg List.length hemp
      simp at this
      exact hne this
    have hall : ((Nat.digits 10 n).reverse.map digitChar).all Char.isDigit = true := by
      rw [List.all_eq_true]
      intro c hc
      obtain ⟨d, hd, rfl⟩ := List.mem_map.mp hc
      exact isDigit_digitChar d (hlt d (List.mem_reverse.mp hd))
    rw [parseNatChars, if_pos ⟨hnonnil, hall⟩]
    congr 1
    have hmm : ((Nat.digits 10 n).reverse.map digitChar).map digitVal
        = (Nat.digits 10 n).reverse := by
      rw [List.map_map]
      have : ∀ d ∈ (Nat.digits 10 n).reverse, (digitVal ∘ digitChar) d = d := by
        intro d hd
        exact digitVal_digitChar d (hlt d (List.mem_reverse.mp hd))
      rw [List.map_congr_left this]
      exact List.map_id _
    rw [hmm, List.reverse_reverse, Nat.ofDigits_digits]

lemma pad2_parse2 (m : ℕ) (h : m < 100) : parse2 (pad2 m) = some m := by
  have h1 : m / 10 < 10 := by omega
  have h2 : m % 10 < 10 := by omega
  have he : parse2 (pad2 m)
      = if (digitChar (m / 10)).isDigit ∧ (digitChar (m % 10)).isDigit then
          some (10 * digitVal (digitChar (m / 10)) + digitVal (digitChar (m % 10)))
        else none := rfl
  rw [he, if_pos ⟨isDigit_digitChar _ h1, isDigit_digitChar _ h2⟩,
    digitVal_digitChar _ h1, digitVal_digitChar _ h2]
  congr 1
  omega

lemma pad4_parse4 (y : ℕ) (h : y < 10000) : parse4 (pad4 y) = some y := by
  have h1 : y / 1000 < 10 := by omega
  have h2 : y / 100 % 10 < 10 := by omega
  have h3 : y / 10 % 10 < 10 := by omega
  have h4 : y % 10 < 10 := by omega
  have he : parse4 (pad4 y)
      = if (digitChar (y / 1000)).isDigit ∧ (digitChar (y / 100 % 10)).isDigit
          ∧ (digitChar (y / 10 % 10)).isDigit ∧ (digitChar (y % 10)).isDigit then
          some (1000 * digitVal (digitChar (y / 1000))
            + 100 * digitVal (digitChar (y / 100 % 10))
            + 10 * digitVal (digitChar (y / 10 % 10))
            + digitVal (digitChar (y % 10)))
        else none := rfl
  rw [he, if_pos ⟨isDigit_digitChar _ h1, isDigit_digitChar _ h2,
    isDigit_digitChar _ h3, isDigit_digitChar _ h4⟩,
    digitVal_digitChar _ h1, digitVal_digitChar _ h2,
    digitVal_digitChar _ h3, digitVal_digitChar _ h4]
  congr 1
  have b1 : y / 100 / 10 = y / 1000 := by rw [Nat.div_div_eq_div_mul]
  have b2 : y / 10 / 10 = y / 100 := by rw [Nat.div_div_eq_div_mul]
  omega

lemma dateChars_roundtrip (d : DateD) (hy : d.year ≤ 9999) (hm : d.month ≤ 99)
    (hd : d.day ≤ 99) : parseDateChars (dateChars d) = some d := by
  have he : dateChars d = [digitChar (d.year / 1000), digitChar (d.year / 100 % 10),
      digitChar (d.year / 10 % 10), digitChar (d.year % 10), '-',
      digitChar (d.month / 10), digitChar (d.month % 10), '-',
      digitChar (d.day / 10), digitChar (d.day % 10)] := rfl
  rw [he]
  have hp : parseDateChars [digitChar (d.year / 1000), digitChar (d.year / 100 % 10),
      digitChar (d.year / 10 % 10), digitChar (d.year % 10), '-',
      digitChar (d.month / 10), digitChar (d.month % 10), '-',
      digitChar (d.day / 10), digitChar (d.day % 10)]
      = if ('-' : Char) = '-' ∧ ('-' : Char) = '-' then
          match parse4 (pad4 d.year), parse2 (pad2 d.month), parse2 (pad2 d.day) with
          | some y, some m, some dd => some ⟨y, m, dd⟩
          | _, _, _ => none
        else none := rfl
  rw [hp, if_pos ⟨rfl, rfl⟩, pad4_parse4 d.year (by omega),
    pad2_parse2 d.month (by omega), pad2_parse2 d.day (by omega)]

lemma amountCents_eq (n : ℕ) : amountCents ((n : ℚ) / 100) = n := by
  unfold amountCents
  have h100 : ((n : ℚ) / 100) * 100 = (n : ℚ) := by
    rw [div_mul_cancel₀]
    norm_num
  rw [h100, Rat.num_natCast]
  exact Int.toNat_natCast n

lemma natChars_mem (k : ℕ) : ∀ c ∈ natChars k, ∃ d, d < 10 ∧ c = digitChar d := by
  intro c hc
  by_cases hk : k = 0
  · subst hk
    have : c = '0' := by simpa [natChars] using hc
    exact ⟨0, by omega, this⟩
  · rw [natChars, if_neg hk] at hc
    obtain ⟨d, hd, rfl⟩ := List.mem_map.mp hc
    exact ⟨d, Nat.digits_lt_base (by norm_num) (List.mem_reverse.mp hd), rfl⟩

lemma digitChar_ne_dot : ∀ d, d < 10 → ((digitChar d ≠ '.') = True) := by decide

lemma amountChars_roundtrip (q : ℚ) (hq : ∃ n : ℕ, 1 ≤ n ∧ q = (n : ℚ) / 100) :
    parseAmountChars (amountChars q) = some q := by
  obtain ⟨n, hn, rfl⟩ := hq
  rw [amountChars, amountCents_eq n]
  have hdigits : ∀ c ∈ natChars (n / 100), (fun c => decide (c ≠ '.')) c = true := by
    intro c hc
    obtain ⟨d, hd, rfl⟩ := natChars_mem (n / 100) c hc
    simp [digitChar_ne_dot d hd]
  have hdot : (fun c : Char => decide (c ≠ '.')) '.' = false := by decide
  have hsplit := takeWhile_append_cons (fun c : Char => decide (c ≠ '.'))
    (natChars (n / 100)) '.' (pad2 (n % 100)) hdigits hdot
  rw [parseAmountChars.eq_def]
  rw [hsplit.2]
  dsimp only
  rw [if_pos rfl, hsplit.1, natChars_roundtrip, pad2_parse2 (n % 100) (by omega)]
  have harith : 100 * (n / 100) + n % 100 = n := by omega
  dsimp only
  rw [harith]

lemma parseCatChars_roundtrip (c : Category) :
    parseCatChars ((catStr c).toList) = some c := by
  cases c <;> rfl

lemma parseTypeChars_roundtrip (ty : TType) :
    parseTypeChars ((tstr ty).toList) = some ty := by
  cases ty <;> rfl

lemma fromRow_toRow (t : Transaction)
    (hamt : ∃ n : ℕ, 1 ≤ n ∧ t.amount = (n : ℚ) / 100)
    (hy : t.date.year ≤ 9999) (hm : t.date.month ≤ 99) (hd : t.date.day ≤ 99) :
    fromRow (toRow t) = some t := by
  have he : fromRow (toRow t)
      = match parseDateChars (dateChars t.date), parseCatChars ((catStr t.category).toList),
          parseAmountChars (amountChars t.amount), parseTypeChars ((tstr t.type).toList) with
        | some d, some c, some a, some ty =>
            some ⟨d, t.description.toList.asString, c, a, ty⟩
        | _, _, _, _ => none := rfl
  rw [he, dateChars_roundtrip t.date hy hm hd, parseCatChars_roundtrip,
    amountChars_roundtrip t.amount hamt, parseTypeChars_roundtrip]
  dsimp only
  rw [String.asString_toList]

/-- C7: the CSV export is the header row `Date,Description,Category,Amount,Type`
followed by one row per transaction in current store (insertion) order, and
re-parsing the export recovers exactly those field tuples in the same order;
each transaction can be recovered from its row exactly, with no loss of
precision in the amount field. -/
theorem csv_export_roundtrip (ts : List Transaction)
    (hamt : ∀ t ∈ ts, ∃ n : ℕ, 1 ≤ n ∧ t.amount = (n : ℚ) / 100)
    (hdate : ∀ t ∈ ts, t.date.year ≤ 9999 ∧ t.date.month ≤ 99 ∧ t.date.day ≤ 99) :
    parseCSV (exportCSV ts).toList = some (headerFields :: ts.map toRow)
    ∧ headerFields = ["Date".toList, "Description".toList, "Category".toList,
        "Amount".toList, "Type".toList]
    ∧ ∀ t ∈ ts, fromRow (toRow t) = some t := by
  refine ⟨?_, rfl, ?_⟩
  · have he : (exportCSV ts).toList = writeCSV (headerFields :: ts.map toRow) := rfl
    rw [he]
    apply parseCSV_roundtrip
    intro r hr
    rcases List.mem_cons.mp hr with rfl | hr2
    · simp [headerFields]
    · obtain ⟨t, ht, rfl⟩ := List.mem_map.mp hr2
      simp [toRow]
  · intro t ht
    obtain ⟨hy, hm, hd⟩ := hdate t ht
    exact fromRow_toRow t (hamt t ht) hy hm hd


/-! ## Concrete sample data for witness instantiations -/

/-- A sample expense: Food, 50, January 2024. -/
def sampleTx1 : Transaction :=
  ⟨⟨2024, 1, 5⟩, "groceries", Category.Food, 50, TType.Expense⟩

/-- A sample income: Other, 30, February 2024. -/
def sampleTx2 : Transaction :=
  ⟨⟨2024, 2, 10⟩, "salary", Category.Other, 30, TType.Income⟩

/-- A sample transaction store. -/
def sampleTs : List Transaction := [sampleTx1, sampleTx2]

/-- A sample budget store: Food capped at 100. -/
def sampleBs : List Budget := [⟨Category.Food, 100⟩]

/-- A sample expense whose description needs CSV quoting. -/
def sampleTx3 : Transaction :=
  ⟨⟨2024, 3, 7⟩, "cafe, \"downtown\"", Category.Food, 50, TType.Expense⟩

/-- Witness for the C2 theorem at a concrete store. -/
theorem budget_vs_actual_rows_witness :
    ((sampleBs.map (·.category)).Nodup)
    ∧ ((budget_vs_actual sampleBs sampleTs).map (·.category) = sampleBs.map (·.category)
      ∧ (∀ c, c ∈ sampleBs.map (·.category) →
          ((budget_vs_actual sampleBs sampleTs).filter (fun r => r.category = c)).length = 1)
      ∧ (∀ r ∈ budget_vs_actual sampleBs sampleTs, ∃ b ∈ sampleBs, b.category = r.category
          ∧ r.amountBudget = b.amount
          ∧ r.amountActual = expenseSum sampleTs r.category
          ∧ r.remaining = b.amount - expenseSum sampleTs r.category
          ∧ r.percentageUsed = expenseSum sampleTs r.category / b.amount * 100)
      ∧ (∀ r ∈ budget_vs_actual sampleBs sampleTs, r.category ∈ sampleBs.map (·.category))) :=
  ⟨by decide, budget_vs_actual_rows sampleBs sampleTs (by decide)⟩

/-- A sample budget store with a second budget (Rent) with no expenses. -/
def sampleBs2 : List Budget := sampleBs ++ [⟨Category.Rent, 200⟩]

/-- Witness for the C3 theorem: Rent has a budget and no expenses. -/
theorem budget_no_expenses_row_witness :
    ((sampleBs2.map (·.category)).Nodup
      ∧ (⟨Category.Rent, 200⟩ : Budget) ∈ sampleBs2
      ∧ (∀ t ∈ sampleTs, ¬(t.type = TType.Expense ∧ t.category = Category.Rent)))
    ∧ ((∃ r ∈ budget_vs_actual sampleBs2 sampleTs, r.category = Category.Rent)
      ∧ ∀ r ∈ budget_vs_actual sampleBs2 sampleTs,
          r.category = Category.Rent →
          r.amountActual = 0 ∧ r.remaining = 200 ∧ r.percentageUsed = 0) :=
  ⟨⟨by decide, by simp [sampleBs2, sampleBs], by decide⟩,
    budget_no_expenses_row sampleBs2 sampleTs Category.Rent 200
      (by decide) (by simp [sampleBs2, sampleBs]) (by decide)⟩

/-- Witness for the C5 theorem at a concrete store. -/
theorem monthly_trend_rows_witness :
    (∀ t ∈ sampleTs, t.date.year ≤ 9999 ∧ t.date.month ≤ 12)
    ∧ ((∀ k s, ((k, s) ∈ monthly_data sampleTs ↔
        ((∃ t ∈ sampleTs, (monthKey t.date, t.type) = k)
          ∧ s = ((sampleTs.filter (fun t => (monthKey t.date, t.type) = k)).map
              (·.amount)).sum)))
      ∧ ((monthly_data sampleTs).map Prod.fst).Nodup
      ∧ (∀ r ∈ monthly_data sampleTs, ∃ t ∈ sampleTs, r.1.1 = monthKey t.date
          ∧ (monthKey t.date).toList = pad4 t.date.year ++ '-' :: pad2 t.date.month)
      ∧ ((monthly_data sampleTs).map (fun r => r.1.1)).Sorted (· ≤ ·)
      ∧ (∀ t1 ∈ sampleTs, ∀ t2 ∈ sampleTs, (monthKey t1.date ≤ monthKey t2.date ↔
          (t1.date.year < t2.date.year
            ∨ (t1.date.year = t2.date.year ∧ t1.date.month ≤ t2.date.month))))) :=
  ⟨by decide, monthly_trend_rows sampleTs (by decide)⟩

/-- Witness for the C9 theorem at a concrete interaction sequence. -/
theorem percentage_used_division_safe_witness :
    (∀ op ∈ [Op.setBudget Category.Food 100, Op.addTx sampleTx1], ∀ c l,
        op = Op.setBudget c l → (1 : ℚ)/100 ≤ l)
    ∧ (∀ r ∈ budget_vs_actual
          (runOps [Op.setBudget Category.Food 100, Op.addTx sampleTx1]).budgets
          (runOps [Op.setBudget Category.Food 100, Op.addTx sampleTx1]).transactions,
        0 < r.amountBudget ∧ r.amountBudget ≠ 0
        ∧ r.percentageUsed = r.amountActual / r.amountBudget * 100) := by
  have hyp : ∀ op ∈ [Op.setBudget Category.Food 100, Op.addTx sampleTx1], ∀ c l,
      op = Op.setBudget c l → (1 : ℚ)/100 ≤ l := by
    intro op hop c l heq
    subst heq
    rcases List.mem_cons.mp hop with h | h
    · injection h with hc hl
      subst hl
      norm_num
    · rcases List.mem_singleton.mp h with h2
      cases h2
  exact ⟨hyp, percentage_used_division_safe _ hyp⟩

/-- Witness for the C7 theorem at a concrete store whose description
requires quoting. -/
theorem csv_export_roundtrip_witness :
    ((∀ t ∈ [sampleTx3], ∃ n : ℕ, 1 ≤ n ∧ t.amount = (n : ℚ) / 100)
      ∧ (∀ t ∈ [sampleTx3], t.date.year ≤ 9999 ∧ t.date.month ≤ 99 ∧ t.date.day ≤ 99))
    ∧ (parseCSV (exportCSV [sampleTx3]).toList
          = some (headerFields :: [sampleTx3].map toRow)
      ∧ headerFields = ["Date".toList, "Description".toList, "Category".toList,
          "Amount".toList, "Type".toList]
      ∧ ∀ t ∈ [sampleTx3], fromRow (toRow t) = some t) := by
  have hamt : ∀ t ∈ [sampleTx3], ∃ n : ℕ, 1 ≤ n ∧ t.amount = (n : ℚ) / 100 := by
    intro t ht
    rw [List.mem_singleton] at ht
    subst ht
    exact ⟨5000, by norm_num, by norm_num [sampleTx3]⟩
  have hdate : ∀ t ∈ [sampleTx3],
      t.date.year ≤ 9999 ∧ t.date.month ≤ 99 ∧ t.date.day ≤ 99 := by decide
  exact ⟨⟨hamt, hdate⟩, csv_export_roundtrip [sampleTx3] hamt hdate⟩

end FinDash
